import Mathlib

/-!
Shallow embedding of tools/normalize_waypoints.py: route waypoint
normalization against an external map-matching service, with a spacing
interpolator, a segment normalizer and file-level processing.

Modelling conventions.  Machine floating point is modelled by exact
arithmetic in a linear ordered field K with a floor function; concrete
runs instantiate K at the rationals, while the haversine distance of the
source is defined over the reals.  The distance function threaded
through the geometric pipeline is an explicit parameter d, instantiable
at the haversine distance.  The external map-matching service is an
oracle resp from a coordinate list to an optional list of matchings
(each matching being the coordinate list of its geometry, already
converted from lon,lat to lat,lon order); the oracle answering none
collapses both a transport failure and a non-success response code,
exactly the two cases the source maps to None via its try/except and
code check.  Source loops that are not structurally recursive carry an
explicit fuel counter: a result of none at the outer Option layer means
the fuel ran out (the source loop did not finish within that many
iterations), while the inner Option is the return value of the Python
function, none standing for Python None.
-/

/-- A latitude, longitude pair. -/
abbrev Coord (K : Type) := K × K

/-- A route point: id, name, latitude, longitude, kind.  The kind field
is optional, mirroring dictionaries in which the key is absent; the
source reads it with .get("kind", "stop"). -/
structure Point (K : Type) where
  id : String
  name : String
  latitude : K
  longitude : K
  kind : Option String
  deriving DecidableEq

/-- A route document: metadata fields plus the ordered point list. -/
structure Route (K : Type) where
  id : String
  route_number : String
  name : String
  area : String
  time_period : String
  color : String
  points : List (Point K)
  deriving DecidableEq

/-- Oracle for the OSRM match endpoint.  none models a transport failure
or a non-success response code; some ms models an Ok response carrying
the matchings ms. -/
abbrev OsrmResp (K : Type) := List (Coord K) → Option (List (List (Coord K)))

/-- EARTH_RADIUS_M constant of the source. -/
def EARTH_RADIUS_M : ℝ := 6371000

/-- math.radians: degrees to radians. -/
noncomputable def radians (x : ℝ) : ℝ := x * Real.pi / 180

/-- math.atan2 with its standard quadrant corrections. -/
noncomputable def atan2 (y x : ℝ) : ℝ :=
  if 0 < x then Real.arctan (y / x)
  else if x < 0 then
    (if 0 ≤ y then Real.arctan (y / x) + Real.pi else Real.arctan (y / x) - Real.pi)
  else if 0 < y then Real.pi / 2
  else if y < 0 then -(Real.pi / 2)
  else 0

/-- haversine_distance: great-circle distance in meters between two
lat, lon points, from the source formula. -/
noncomputable def haversine_distance (lat1 lon1 lat2 lon2 : ℝ) : ℝ :=
  let phi1 := radians lat1
  let phi2 := radians lat2
  let delta_phi := radians (lat2 - lat1)
  let delta_lambda := radians (lon2 - lon1)
  let a := Real.sin (delta_phi / 2) ^ 2 +
    Real.cos phi1 * Real.cos phi2 * Real.sin (delta_lambda / 2) ^ 2
  let c := 2 * atan2 (Real.sqrt a) (Real.sqrt (1 - a))
  EARTH_RADIUS_M * c

section ModelDefs

variable {K : Type} [LinearOrderedField K] [FloorRing K]

/-- Default coordinate handed to list access defaults; every access in
the source it stands in for is in bounds. -/
def coord0 : Coord K := (0, 0)

/-- Python int() applied to a quotient: truncation toward zero. -/
def pyInt (x : K) : ℤ := if x < 0 then ⌈x⌉ else ⌊x⌋

/-- interpolate_point: linear interpolation in latitude and longitude
space at a given fraction. -/
def interpolate_point (p q : Coord K) (fraction : K) : Coord K :=
  (p.1 + (q.1 - p.1) * fraction, p.2 + (q.2 - p.2) * fraction)

/-- Fold the points of one matching geometry onto an accumulator,
skipping a point equal to the current last element: the duplicate guard
inside call_osrm_match_chunk. -/
def dedupAppend (acc pts : List (Coord K)) : List (Coord K) :=
  pts.foldl (fun a p => if a.getLast? = some p then a else a ++ [p]) acc

/-- call_osrm_match_chunk: one request to the match endpoint for a chunk
of coordinates.  Returns none when the chunk has fewer than 2 points,
when the oracle fails (transport failure or non-success code), when the
matchings list is empty, and when the combined geometry is empty;
otherwise the concatenation of all matching geometries with adjacent
duplicates collapsed. -/
def call_osrm_match_chunk (resp : OsrmResp K) (coords : List (Coord K)) :
    Option (List (Coord K)) :=
  if coords.length < 2 then none
  else
    match resp coords with
    | none => none
    | some matchings =>
      if matchings.isEmpty then none
      else
        let all := matchings.foldl (fun a g => dedupAppend a g) []
        if all.isEmpty then none else some all

/-- Merge a chunk geometry into the accumulated geometry of
call_osrm_match: an empty accumulator is extended wholesale, otherwise
points equal to the current last element are skipped. -/
def mergeGeometry (acc pts : List (Coord K)) : List (Coord K) :=
  if acc.isEmpty then acc ++ pts else dedupAppend acc pts

/-- Chunking loop of call_osrm_match, indexed by fuel (one unit per loop
iteration and per adaptive retry).  The state is the window start i and
the accumulated geometry acc.  A failed window larger than 20 points is
retried through the inlined body of call_osrm_match with the chunk size
halved (the recursion of the source, realized here on the fuel
counter); a retry result that is None or empty aborts the whole call
with None, mirroring the truthiness test of the source. -/
def matchLoop (resp : OsrmResp K) :
    ℕ → List (Coord K) → ℕ → ℕ → List (Coord K) → Option (Option (List (Coord K)))
  | 0, _, _, _, _ => none
  | fuel + 1, coords, chunkSize, i, acc =>
    if i < coords.length then
      let e := min (i + chunkSize) coords.length
      let chunk := (coords.drop i).take (e - i)
      let nexti := if e < coords.length then e - 5 else e
      match call_osrm_match_chunk resp chunk with
      | some g => matchLoop resp fuel coords chunkSize nexti (mergeGeometry acc g)
      | none =>
        if 20 < chunk.length then
          match (if chunk.length < 2 then some none
                 else if chunk.length ≤ chunk.length / 2 then
                   some (call_osrm_match_chunk resp chunk)
                 else matchLoop resp fuel chunk (chunk.length / 2) 0 []) with
          | none => none
          | some none => some none
          | some (some g) =>
            if g.isEmpty then some none
            else matchLoop resp fuel coords chunkSize nexti (mergeGeometry acc g)
        else some none
    else some (if acc.isEmpty then none else some acc)

/-- call_osrm_match: match a coordinate list, in one request when it
fits in chunkSize, otherwise through the chunking loop with 5-point
overlap between windows. -/
def call_osrm_match (resp : OsrmResp K) (fuel : ℕ) (coords : List (Coord K))
    (chunkSize : ℕ) : Option (Option (List (Coord K))) :=
  if coords.length < 2 then some none
  else if coords.length ≤ chunkSize then some (call_osrm_match_chunk resp coords)
  else matchLoop resp fuel coords chunkSize 0 []

/-- Inner while loop of interpolate_waypoints_along_geometry for one
leg from p to c of length segdist: emits points at spacing intervals.
State: emitted waypoints, accumulated distance, remaining leg length,
fractional position of the last emission. -/
def innerF (spacing : K) (p c : Coord K) (segdist : K) :
    ℕ → List (Coord K) → K → K → K → Option (List (Coord K) × K × K × K)
  | 0, _, _, _, _ => none
  | fuel + 1, ws, acc, rem, sst =>
    if spacing ≤ acc + rem then
      let d2n := spacing - acc
      let frac := sst + d2n / segdist
      if frac ≤ 1 then
        innerF spacing p c segdist fuel (ws ++ [interpolate_point p c frac]) 0 (rem - d2n) frac
      else some (ws, acc, rem, sst)
    else some (ws, acc, rem, sst)

/-- Leg loop of interpolate_waypoints_along_geometry: walks the list of
adjacent coordinate pairs, carrying the emitted waypoints and the
accumulated distance across legs. -/
def walkF (d : Coord K → Coord K → K) (spacing : K) (fuel : ℕ) :
    List (Coord K × Coord K) → List (Coord K) → K → Option (List (Coord K) × K)
  | [], ws, acc => some (ws, acc)
  | (p, c) :: rest, ws, acc =>
    let segdist := d p c
    match innerF spacing p c segdist fuel ws acc segdist 0 with
    | none => none
    | some (ws2, acc2, rem2, _) => walkF d spacing fuel rest ws2 (acc2 + rem2)

/-- interpolate_waypoints_along_geometry: resample a dense geometry at a
fixed spacing.  Degenerate input is returned unchanged; otherwise the
walk starts from the first input point and the final input point is
appended afterwards unless the walk already ends with it. -/
def interpolate_waypoints_along_geometry (d : Coord K → Coord K → K) (spacing : K)
    (fuel : ℕ) (geometry : List (Coord K)) : Option (List (Coord K)) :=
  if geometry.length < 2 then some geometry
  else
    match walkF d spacing fuel (geometry.zip geometry.tail) [geometry.headD coord0] 0 with
    | none => none
    | some (ws, _) =>
      some (if ws.getLastD coord0 = geometry.getLastD coord0 then ws
            else ws ++ [geometry.getLastD coord0])

/-- normalize_segment: normalized waypoints for one segment.  Fewer than
2 coordinates are returned unchanged; a successful match is resampled
along the road geometry; a failed match falls back to straight-line
interpolation between the two endpoints, with
max(2, int(dist / spacing) + 1) points. -/
def normalize_segment (d : Coord K → Coord K → K) (resp : OsrmResp K) (spacing : K)
    (fuel : ℕ) (segment_coords : List (Coord K)) : Option (List (Coord K)) :=
  if segment_coords.length < 2 then some segment_coords
  else
    match call_osrm_match resp fuel segment_coords 80 with
    | none => none
    | some none =>
      let s := segment_coords.headD coord0
      let e := segment_coords.getLastD coord0
      let dist := d s e
      if dist ≤ spacing then some [s, e]
      else
        let num_points := (max 2 (pyInt (dist / spacing) + 1)).toNat
        some ((List.range num_points).map
          (fun i : ℕ => interpolate_point s e ((i : K) / ((num_points : K) - 1))))
    | some (some geometry) => interpolate_waypoints_along_geometry d spacing fuel geometry

/-- Default point handed to list access defaults; every access in the
source it stands in for is in bounds. -/
def dfltPoint : Point K :=
  { id := "", name := "", latitude := 0, longitude := 0, kind := none }

/-- Point of a list at index i (source indexing, always in bounds where
used). -/
def pointAt (ps : List (Point K)) (i : ℕ) : Point K := ps.getD i dfltPoint

/-- Kind test of the source: point.get("kind", "stop") == "stop". -/
def isStop (p : Point K) : Bool := (p.kind.getD ("stop")) = ("stop")

/-- Indices of all stop points, in order: the stop_indices list of
normalize_route. -/
def stopIdxs (ps : List (Point K)) : List ℕ :=
  (List.range ps.length).filter (fun i => isStop (pointAt ps i))

/-- Coordinate slice points[i : j + 1] of the source, as lat, lon
pairs. -/
def sliceCoords (ps : List (Point K)) (i j : ℕ) : List (Coord K) :=
  ((ps.drop i).take (j - i + 1)).map (fun p => (p.latitude, p.longitude))

/-- The coordinate slices normalize_route hands to normalize_segment:
the lead-in slice when points precede the first stop, one slice per
consecutive stop pair, and the trail-out slice when points follow the
last stop. -/
def segmentSlices (ps : List (Point K)) : List (List (Coord K)) :=
  let si := stopIdxs ps
  (if 0 < si.headD 0 then [sliceCoords ps 0 (si.headD 0)] else []) ++
    (si.zip si.tail).map (fun ij => sliceCoords ps ij.1 ij.2) ++
    (if si.getLastD 0 < ps.length - 1 then
      [sliceCoords ps (si.getLastD 0) (ps.length - 1)] else [])

/-- Freshly minted waypoint point: generated id, empty name, kind
waypoint. -/
def mkWaypoint (ids : ℕ → String) (k : ℕ) (c : Coord K) : Point K :=
  { id := ids k, name := "", latitude := c.1, longitude := c.2, kind := some ("waypoint") }

/-- Mint waypoint points for a coordinate list, drawing ids from the
supply starting at index c0idx. -/
def mkWaypoints (ids : ℕ → String) (c0idx : ℕ) (cs : List (Coord K)) : List (Point K) :=
  cs.enum.map (fun ik => mkWaypoint ids (c0idx + ik.1) ik.2)

/-- Stop-to-stop loop of normalize_route: emit each stop, and between
consecutive stops the interior points of the normalized slice as new
waypoints.  Carries the id-supply counter; a fuel-exhausted segment
call propagates as none. -/
def stopLoop (d : Coord K → Coord K → K) (resp : OsrmResp K) (ids : ℕ → String)
    (spacing : K) (fuel : ℕ) (pts : List (Point K)) :
    List ℕ → ℕ → Option (List (Point K) × ℕ)
  | [], c => some ([], c)
  | [i], c => some ([pointAt pts i], c)
  | i :: j :: rest, c =>
    match normalize_segment d resp spacing fuel (sliceCoords pts i j) with
    | none => none
    | some ws =>
      let mids := if 2 < ws.length then (ws.drop 1).dropLast else []
      match stopLoop d resp ids spacing fuel pts (j :: rest) (c + mids.length) with
      | none => none
      | some (tailPts, c2) =>
        some (pointAt pts i :: (mkWaypoints ids c mids ++ tailPts), c2)

/-- normalize_route: fail (inner none) when the route has fewer than 2
points or fewer than 2 stops; otherwise normalize the lead-in slice,
every stop-to-stop slice and the trail-out slice, and reassemble.  The
out-of-bounds check of the source only prints warnings and is omitted.
The source never mutates its input; the result reuses every other route
field. -/
def normalize_route (d : Coord K → Coord K → K) (resp : OsrmResp K) (ids : ℕ → String)
    (spacing : K) (fuel : ℕ) (route : Route K) : Option (Option (Route K)) :=
  let points := route.points
  if points.length < 2 then some none
  else
    let si := stopIdxs points
    if si.length < 2 then some none
    else
      let firstStop := si.headD 0
      match (if 0 < firstStop then
               (normalize_segment d resp spacing fuel (sliceCoords points 0 firstStop)).map
                 (fun ws => ws.dropLast)
             else some []) with
      | none => none
      | some preC =>
        let pre := mkWaypoints ids 0 preC
        match stopLoop d resp ids spacing fuel points si pre.length with
        | none => none
        | some (mid, c2) =>
          let lastStop := si.getLastD 0
          match (if lastStop < points.length - 1 then
                   (normalize_segment d resp spacing fuel
                     (sliceCoords points lastStop (points.length - 1))).map
                     (fun ws => ws.tail)
                 else some []) with
          | none => none
          | some postC =>
            let post := mkWaypoints ids c2 postC
            some (some { route with points := pre ++ mid ++ post })

/-- State of one route file: current contents and the optional .bak
sibling. -/
structure FSState (K : Type) where
  main : Route K
  backup : Option (Route K)
  deriving DecidableEq

/-- process_route_file: normalize the route read from the file; on
failure (including a stop-count drift after reassembly) report False
and leave both the file and the backup untouched; on success write the
backup first (when enabled) and then the normalized route.  The
max-gap and point-count diagnostics of the source only print and are
omitted. -/
def process_route_file (d : Coord K → Coord K → K) (resp : OsrmResp K) (ids : ℕ → String)
    (spacing : K) (backup : Bool) (fuel : ℕ) (st : FSState K) : Option (Bool × FSState K) :=
  let route := st.main
  let original_stops := (route.points.filter isStop).length
  match normalize_route d resp ids spacing fuel route with
  | none => none
  | some none => some (false, st)
  | some (some normalized) =>
    let new_stops := (normalized.points.filter isStop).length
    if new_stops ≠ original_stops then some (false, st)
    else
      let st2 := if backup then { st with backup := some st.main } else st
      some (true, { st2 with main := normalized })

end ModelDefs

/-! Concrete fixtures over the rationals, used by witnesses and
counterexamples. -/

/-- Oracle that always fails (transport failure or non-success code on
every request). -/
def respNone : OsrmResp ℚ := fun _ => none

/-- Oracle that always answers Ok with an empty matchings list. -/
def respEmptyM : OsrmResp ℚ := fun _ => some []

/-- Oracle that always answers with one matching whose geometry is the
two points (5,5), (6,6). -/
def respGeom : OsrmResp ℚ := fun _ => some [[(5, 5), (6, 6)]]

/-- Oracle that always answers with one matching holding the single
point (0,0). -/
def respP00 : OsrmResp ℚ := fun _ => some [[(0, 0)]]

/-- Distance oracle that reports 50 meters between any two points. -/
def dConst50 : Coord ℚ → Coord ℚ → ℚ := fun _ _ => 50

/-- Distance oracle that reports 100 meters between any two points. -/
def dConst100 : Coord ℚ → Coord ℚ → ℚ := fun _ _ => 100

/-- Constant id supply. -/
def ids0 : ℕ → String := fun _ => "w"

/-- Two sample coordinates. -/
def twoPts : List (Coord ℚ) := [(0, 0), (1, 1)]

/-- Six sample coordinates. -/
def sixPts : List (Coord ℚ) := [(0, 0), (0, 1), (0, 2), (0, 3), (0, 4), (0, 5)]

/-- A stop point with explicit kind. -/
def stopA : Point ℚ :=
  { id := "s1", name := "A", latitude := 0, longitude := 0, kind := some ("stop") }

/-- A stop point with the kind key absent (defaults to stop). -/
def stopB : Point ℚ :=
  { id := "s2", name := "B", latitude := 1, longitude := 1, kind := none }

/-- The waypoint minted between stopA and stopB by the fallback at
spacing 20 with constant distance 50. -/
def wpHalf : Point ℚ :=
  { id := "w", name := "", latitude := 1/2, longitude := 1/2, kind := some ("waypoint") }

/-- A plain waypoint point. -/
def wpC : Point ℚ :=
  { id := "v", name := "", latitude := 2, longitude := 2, kind := some ("waypoint") }

/-- A two-stop route. -/
def routeA : Route ℚ :=
  { id := "r", route_number := "1", name := "n", area := "ar", time_period := "am",
    color := "c", points := [stopA, stopB] }

/-- The normalization of routeA under dConst50, respNone, ids0,
spacing 20. -/
def routeAnorm : Route ℚ := { routeA with points := [stopA, wpHalf, stopB] }

/-- A route with a single stop. -/
def routeB : Route ℚ := { routeA with points := [stopA, wpC] }

/-- File state holding routeA with no backup. -/
def fsA : FSState ℚ := { main := routeA, backup := none }

/-- File state holding the one-stop routeB with no backup. -/
def fsB : FSState ℚ := { main := routeB, backup := none }

/-! Generic helper lemmas. -/

section Helpers

variable {K : Type} [LinearOrderedField K] [FloorRing K]

/-- Filtering a list equals reading the list off its filtered index
list: the bridge between stop_indices and the stop sublist. -/
theorem filter_eq_map_filter_range {α : Type} (q : α → Bool) (d0 : α) :
    ∀ l : List α,
      ((List.range l.length).filter (fun i => q (l.getD i d0))).map (fun i => l.getD i d0) =
        l.filter q := by
  intro l
  induction l with
  | nil => rfl
  | cons a t ih =>
    have hcomp : (List.map Nat.succ (List.range t.length)).filter
        (fun i => q ((a :: t).getD i d0)) =
        ((List.range t.length).filter (fun i => q (t.getD i d0))).map Nat.succ := by
      rw [List.filter_map]
      rfl
    have hpred : ((List.range t.length).filter (fun i => q (t.getD i d0))).map
        ((fun i => (a :: t).getD i d0) ∘ Nat.succ) =
        ((List.range t.length).filter (fun i => q (t.getD i d0))).map
          (fun i => t.getD i d0) := rfl
    rw [List.length_cons, List.range_succ_eq_map, List.filter_cons]
    cases hqa : q a with
    | true =>
      rw [if_pos (by simpa using hqa), List.map_cons, hcomp, List.map_map, hpred, ih,
        List.getD_cons_zero, List.filter_cons, if_pos (by simpa using hqa)]
    | false =>
      rw [if_neg (by simp [hqa]), hcomp, List.map_map, hpred, ih,
        List.filter_cons, if_neg (by simp [hqa])]

/-- The stop sublist of a point list is the stop-index list read back
through pointAt. -/
theorem filter_isStop_eq_stopIdxs_map (ps : List (Point K)) :
    (stopIdxs ps).map (pointAt ps) = ps.filter isStop := by
  simpa only [stopIdxs, pointAt] using
    filter_eq_map_filter_range isStop dfltPoint ps

/-- Minted waypoints never count as stops. -/
theorem filter_isStop_mkWaypoints (ids : ℕ → String) (c0idx : ℕ) (cs : List (Coord K)) :
    (mkWaypoints ids c0idx cs).filter isStop = [] := by
  rw [List.filter_eq_nil_iff]
  intro x hx
  obtain ⟨ik, _, rfl⟩ := List.mem_map.mp hx
  simp [isStop, mkWaypoint]

/-- Every index produced by stopIdxs points at a stop. -/
theorem isStop_of_mem_stopIdxs {ps : List (Point K)} {i : ℕ} (h : i ∈ stopIdxs ps) :
    isStop (pointAt ps i) = true := by
  have := List.mem_filter.mp h
  simpa using this.2

/-- Indices produced by stopIdxs are in bounds. -/
theorem lt_length_of_mem_stopIdxs {ps : List (Point K)} {i : ℕ} (h : i ∈ stopIdxs ps) :
    i < ps.length := by
  have := List.mem_filter.mp h
  exact List.mem_range.mp this.1

/-- The stop sublist of the stop-to-stop loop output is exactly the
stop-index list read back through pointAt. -/
theorem stopLoop_filter (d : Coord K → Coord K → K) (resp : OsrmResp K) (ids : ℕ → String)
    (spacing : K) (fuel : ℕ) (pts : List (Point K)) :
    ∀ (si : List ℕ) (c : ℕ) (l : List (Point K)) (c2 : ℕ),
      (∀ i ∈ si, isStop (pointAt pts i) = true) →
      stopLoop d resp ids spacing fuel pts si c = some (l, c2) →
      l.filter isStop = si.map (pointAt pts) := by
  intro si
  induction si with
  | nil =>
    intro c l c2 _ h
    simp only [stopLoop, Option.some_inj, Prod.mk.injEq] at h
    rw [← h.1]
    rfl
  | cons i rest ih =>
    cases rest with
    | nil =>
      intro c l c2 hmem h
      simp only [stopLoop, Option.some_inj, Prod.mk.injEq] at h
      have hstop : isStop (pointAt pts i) = true := hmem i (by simp)
      rw [← h.1]
      simp [List.filter_cons, hstop]
    | cons j rest2 =>
      intro c l c2 hmem h
      rw [stopLoop] at h
      cases hseg : normalize_segment d resp spacing fuel (sliceCoords pts i j) with
      | none => rw [hseg] at h; exact absurd h (by simp)
      | some ws =>
        rw [hseg] at h
        dsimp only at h
        cases hrec : stopLoop d resp ids spacing fuel pts (j :: rest2)
            (c + (if 2 < ws.length then (ws.drop 1).dropLast else []).length) with
        | none => rw [hrec] at h; exact absurd h (by simp)
        | some pr =>
          rw [hrec] at h
          simp only [Option.some_inj, Prod.mk.injEq] at h
          have hstop : isStop (pointAt pts i) = true := hmem i (by simp)
          have htail := ih (c + (if 2 < ws.length then (ws.drop 1).dropLast else []).length)
            pr.1 pr.2 (fun x hx => hmem x (List.mem_cons_of_mem i hx)) (by rw [hrec])
          rw [← h.1]
          simp only [List.filter_cons, hstop, if_pos, List.filter_append,
            filter_isStop_mkWaypoints, List.nil_append, List.map_cons]
          rw [htail]
          rfl

end Helpers

section Claims1

variable {K : Type} [LinearOrderedField K] [FloorRing K]

/-- C1 (Stop preservation): for every route with at least 2 points and
at least 2 stops, and every spacing s > 0, the subsequence of stop-kind
points (a point whose kind is absent counts as a stop) of any route
returned by normalize_route equals the stop subsequence of the input
exactly: same records, hence same count, order, id, name, latitude and
longitude.  The statement holds for every distance function, oracle, id
supply and fuel. -/
theorem stop_preservation (d : Coord K → Coord K → K) (resp : OsrmResp K)
    (ids : ℕ → String) (spacing : K) (fuel : ℕ) (route r : Route K)
    (hpts : 2 ≤ route.points.length) (hstops : 2 ≤ (stopIdxs route.points).length)
    (hsp : 0 < spacing)
    (hres : normalize_route d resp ids spacing fuel route = some (some r)) :
    r.points.filter isStop = route.points.filter isStop := by
  simp only [normalize_route] at hres
  rw [if_neg (by omega), if_neg (by omega)] at hres
  cases hpre : (if 0 < (stopIdxs route.points).headD 0 then
      (normalize_segment d resp spacing fuel
        (sliceCoords route.points 0 ((stopIdxs route.points).headD 0))).map
        (fun ws => ws.dropLast)
    else some []) with
  | none => rw [hpre] at hres; exact absurd hres (by simp)
  | some preC =>
    rw [hpre] at hres
    dsimp only at hres
    cases hmid : stopLoop d resp ids spacing fuel route.points (stopIdxs route.points)
        (mkWaypoints ids 0 preC).length with
    | none => rw [hmid] at hres; exact absurd hres (by simp)
    | some pr =>
      obtain ⟨mid, c2⟩ := pr
      rw [hmid] at hres
      dsimp only at hres
      cases hpost : (if (stopIdxs route.points).getLastD 0 < route.points.length - 1 then
          (normalize_segment d resp spacing fuel
            (sliceCoords route.points ((stopIdxs route.points).getLastD 0)
              (route.points.length - 1))).map (fun ws => ws.tail)
        else some []) with
      | none => rw [hpost] at hres; exact absurd hres (by simp)
      | some postC =>
        rw [hpost] at hres
        dsimp only at hres
        simp only [Option.some_inj] at hres
        rw [← hres]
        dsimp only
        rw [List.filter_append, List.filter_append, filter_isStop_mkWaypoints,
          filter_isStop_mkWaypoints, List.nil_append, List.append_nil]
        rw [stopLoop_filter d resp ids spacing fuel route.points (stopIdxs route.points)
          (mkWaypoints ids 0 preC).length mid c2
          (fun i hi => isStop_of_mem_stopIdxs hi) hmid]
        exact filter_isStop_eq_stopIdxs_map route.points

/-- C4 (Failure atomicity): with fewer than 2 points, fewer than 2
stops, or a stop count changed by reassembly, process_route_file
reports False and the file state — both the route file contents and the
backup — is returned unchanged: nothing is written and no backup is
created. -/
theorem failure_atomicity (d : Coord K → Coord K → K) (resp : OsrmResp K)
    (ids : ℕ → String) (spacing : K) (bk : Bool) (fuel : ℕ) (st : FSState K) :
    (st.main.points.length < 2 →
      process_route_file d resp ids spacing bk fuel st = some (false, st)) ∧
    ((st.main.points.filter isStop).length < 2 →
      process_route_file d resp ids spacing bk fuel st = some (false, st)) ∧
    (∀ r : Route K, normalize_route d resp ids spacing fuel st.main = some (some r) →
      (r.points.filter isStop).length ≠ (st.main.points.filter isStop).length →
      process_route_file d resp ids spacing bk fuel st = some (false, st)) := by
  refine ⟨?_, ?_, ?_⟩
  · intro h
    have hnr : normalize_route d resp ids spacing fuel st.main = some none := by
      simp only [normalize_route]
      rw [if_pos h]
    simp only [process_route_file]
    rw [hnr]
  · intro h
    have hsi : (stopIdxs st.main.points).length < 2 := by
      have hm := filter_isStop_eq_stopIdxs_map st.main.points
      have hlen : (stopIdxs st.main.points).length =
          (st.main.points.filter isStop).length := by
        rw [← hm, List.length_map]
      omega
    have hnr : normalize_route d resp ids spacing fuel st.main = some none := by
      simp only [normalize_route]
      by_cases h2 : st.main.points.length < 2
      · rw [if_pos h2]
      · rw [if_neg h2, if_pos hsi]
    simp only [process_route_file]
    rw [hnr]
  · intro r hnr hne
    simp only [process_route_file]
    rw [hnr]
    dsimp only
    rw [if_pos hne]

end Claims1

/-- Witness for stop_preservation: a concrete two-stop route, the
always-failing oracle and spacing 20; its hypotheses hold and the stop
sublist is preserved. -/
theorem stop_preservation_witness :
    (2 ≤ routeA.points.length ∧ 2 ≤ (stopIdxs routeA.points).length ∧ (0:ℚ) < 20 ∧
      normalize_route dConst50 respNone ids0 20 3 routeA = some (some routeAnorm)) ∧
    routeAnorm.points.filter isStop = routeA.points.filter isStop :=
  ⟨⟨by with_unfolding_all decide, by with_unfolding_all decide, by with_unfolding_all decide,
    by with_unfolding_all decide⟩,
   stop_preservation dConst50 respNone ids0 20 3 routeA routeAnorm
     (by with_unfolding_all decide) (by with_unfolding_all decide)
     (by with_unfolding_all decide) (by with_unfolding_all decide)⟩

/-- Witness for failure_atomicity: a concrete one-stop route; the file
state comes back unchanged with a False report. -/
theorem failure_atomicity_witness :
    (fsB.main.points.filter isStop).length < 2 ∧
    process_route_file dConst50 respNone ids0 20 true 3 fsB = some (false, fsB) :=
  ⟨by with_unfolding_all decide,
   (failure_atomicity dConst50 respNone ids0 20 true 3 fsB).2.1
     (by with_unfolding_all decide)⟩

section Claims2

variable {K : Type} [LinearOrderedField K] [FloorRing K]

/-- Reading a mapped range list at an in-range index gives the function
value. -/
theorem getD_map_range {α : Type} (f : ℕ → α) {N i : ℕ} (h : i < N) (d0 : α) :
    ((List.range N).map f).getD i d0 = f i := by
  rw [List.getD_eq_getElem?_getD]
  rw [List.getElem?_eq_getElem (by simpa using h)]
  simp

/-- headD is indexing at 0. -/
theorem headD_eq_getD {α : Type} (l : List α) (d0 : α) : l.headD d0 = l.getD 0 d0 := by
  cases l <;> rfl

/-- getLastD is indexing at length - 1. -/
theorem getLastD_eq_getD {α : Type} (l : List α) (d0 : α) :
    l.getLastD d0 = l.getD (l.length - 1) d0 := by
  rw [List.getLastD_eq_getLast?, List.getLast?_eq_getElem?, List.getD_eq_getElem?_getD]

/-- C2 amended (Fallback interpolation count): when the gateway returns
NONE on a segment of at least 2 coordinates, normalize_segment returns
exactly the two endpoints if their distance is at most spacing;
otherwise it returns max(2, floor(dist / spacing) + 1) points — the
endpoints plus linearly interpolated points dividing the straight
segment into max(1, floor(dist / spacing)) equal sub-intervals.  pyInt
is truncation toward zero, which is the floor here since
dist > spacing > 0. -/
theorem fallback_interpolation_count (d : Coord K → Coord K → K) (resp : OsrmResp K)
    (spacing : K) (fuel : ℕ) (coords : List (Coord K))
    (h2 : 2 ≤ coords.length) (hsp : 0 < spacing)
    (hfail : call_osrm_match resp fuel coords 80 = some none) :
    (d (coords.headD coord0) (coords.getLastD coord0) ≤ spacing →
      normalize_segment d resp spacing fuel coords =
        some [coords.headD coord0, coords.getLastD coord0]) ∧
    (spacing < d (coords.headD coord0) (coords.getLastD coord0) →
      ∃ r, normalize_segment d resp spacing fuel coords = some r ∧
        r.length = (max 2 (pyInt
          (d (coords.headD coord0) (coords.getLastD coord0) / spacing) + 1)).toNat ∧
        r.headD coord0 = coords.headD coord0 ∧
        r.getLastD coord0 = coords.getLastD coord0 ∧
        ∀ i, i + 1 < r.length →
          (r.getD (i + 1) coord0).1 - (r.getD i coord0).1 =
            ((coords.getLastD coord0).1 - (coords.headD coord0).1) / ((r.length : K) - 1) ∧
          (r.getD (i + 1) coord0).2 - (r.getD i coord0).2 =
            ((coords.getLastD coord0).2 - (coords.headD coord0).2) / ((r.length : K) - 1)) := by
  have hbase : normalize_segment d resp spacing fuel coords =
      (if d (coords.headD coord0) (coords.getLastD coord0) ≤ spacing then
        some [coords.headD coord0, coords.getLastD coord0]
      else
        some ((List.range (max 2 (pyInt
            (d (coords.headD coord0) (coords.getLastD coord0) / spacing) + 1)).toNat).map
          (fun i : ℕ => interpolate_point (coords.headD coord0) (coords.getLastD coord0)
            ((i : K) / (((max 2 (pyInt
              (d (coords.headD coord0) (coords.getLastD coord0) / spacing) + 1)).toNat : K)
              - 1))))) := by
    simp only [normalize_segment]
    rw [if_neg (by omega), hfail]
  constructor
  · intro hle
    rw [hbase, if_pos hle]
  · intro hgt
    set s := coords.headD coord0 with hs
    set e := coords.getLastD coord0 with he
    set N := (max 2 (pyInt (d s e / spacing) + 1)).toNat with hN
    have hN2 : 2 ≤ N := by
      have := le_max_left 2 (pyInt (d s e / spacing) + 1)
      omega
    have hNK : (2 : K) ≤ (N : K) := by exact_mod_cast hN2
    have hNK1 : ((N : K) - 1) ≠ 0 := by
      intro hcon
      have : (N : K) = 1 := by linarith
      linarith
    refine ⟨(List.range N).map
      (fun i : ℕ => interpolate_point s e ((i : K) / ((N : K) - 1))), ?_, ?_, ?_, ?_, ?_⟩
    · rw [hbase, if_neg (not_le.mpr hgt)]
    · rw [List.length_map, List.length_range]
    · rw [headD_eq_getD, getD_map_range _ (by omega : 0 < N)]
      simp [interpolate_point]
    · rw [getLastD_eq_getD, List.length_map, List.length_range]
      rw [getD_map_range _ (by omega : N - 1 < N)]
      have hcast : ((N - 1 : ℕ) : K) = (N : K) - 1 := by
        have h1 : 1 ≤ N := by omega
        push_cast [h1]
        ring
      rw [hcast, div_self hNK1]
      simp only [interpolate_point, mul_one]
      rw [Prod.ext_iff]
      constructor <;> ring_nf
    · intro i hi
      rw [List.length_map, List.length_range] at hi
      rw [List.length_map, List.length_range]
      rw [getD_map_range _ (by omega : i + 1 < N), getD_map_range _ (by omega : i < N)]
      have hcast : ((i + 1 : ℕ) : K) = (i : K) + 1 := by push_cast; ring
      constructor
      · simp only [interpolate_point]
        rw [hcast]
        ring
      · simp only [interpolate_point]
        rw [hcast]
        ring

end Claims2

/-- Counterexample to C2 as stated: with the gateway returning NONE
(service answers Ok with an empty matchings list), distance 50 and
spacing 20, the fallback returns 3 points, while
ceil(50 / 20) + 1 = 4. -/
theorem fallback_interpolation_count_counterexample :
    call_osrm_match respEmptyM 1 twoPts 80 = some none ∧
    (normalize_segment dConst50 respEmptyM 20 1 twoPts).map List.length = some 3 ∧
    (3 : ℤ) ≠ ⌈(50 : ℚ) / 20⌉ + 1 :=
  ⟨by with_unfolding_all decide, by with_unfolding_all decide,
   by with_unfolding_all decide⟩

/-- Witness for fallback_interpolation_count: concrete endpoints at
distance 50 and spacing 20; its hypotheses hold and the interpolation
branch applies. -/
theorem fallback_interpolation_count_witness :
    (2 ≤ twoPts.length ∧ (0 : ℚ) < 20 ∧
      call_osrm_match respEmptyM 1 twoPts 80 = some none ∧
      (20 : ℚ) < dConst50 (twoPts.headD coord0) (twoPts.getLastD coord0)) ∧
    (∃ r, normalize_segment dConst50 respEmptyM 20 1 twoPts = some r ∧
      r.length = (max 2 (pyInt
        (dConst50 (twoPts.headD coord0) (twoPts.getLastD coord0) / 20) + 1)).toNat ∧
      r.headD coord0 = twoPts.headD coord0 ∧
      r.getLastD coord0 = twoPts.getLastD coord0 ∧
      ∀ i, i + 1 < r.length →
        (r.getD (i + 1) coord0).1 - (r.getD i coord0).1 =
          ((twoPts.getLastD coord0).1 - (twoPts.headD coord0).1) / ((r.length : ℚ) - 1) ∧
        (r.getD (i + 1) coord0).2 - (r.getD i coord0).2 =
          ((twoPts.getLastD coord0).2 - (twoPts.headD coord0).2) / ((r.length : ℚ) - 1)) :=
  ⟨⟨by with_unfolding_all decide, by with_unfolding_all decide,
    by with_unfolding_all decide, by with_unfolding_all decide⟩,
   (fallback_interpolation_count dConst50 respEmptyM 20 1 twoPts
     (by with_unfolding_all decide) (by with_unfolding_all decide)
     (by with_unfolding_all decide)).2 (by with_unfolding_all decide)⟩

section Claims3

variable {K : Type} [LinearOrderedField K] [FloorRing K]

/-- The inner resampling loop only appends to the waypoint list. -/
theorem innerF_append (spacing : K) (p c : Coord K) (segdist : K) :
    ∀ (fuel : ℕ) (ws : List (Coord K)) (acc rem sst : K) (r : List (Coord K) × K × K × K),
      innerF spacing p c segdist fuel ws acc rem sst = some r →
      ∃ t, r.1 = ws ++ t := by
  intro fuel
  induction fuel with
  | zero =>
    intro ws acc rem sst r h
    exact absurd h (by simp [innerF])
  | succ n ih =>
    intro ws acc rem sst r h
    simp only [innerF] at h
    by_cases h1 : spacing ≤ acc + rem
    · rw [if_pos h1] at h
      by_cases hf : sst + (spacing - acc) / segdist ≤ 1
      · rw [if_pos hf] at h
        obtain ⟨t, ht⟩ := ih _ _ _ _ _ h
        refine ⟨[interpolate_point p c (sst + (spacing - acc) / segdist)] ++ t, ?_⟩
        rw [ht, List.append_assoc]
      · rw [if_neg hf] at h
        refine ⟨[], ?_⟩
        rw [← Option.some_inj.mp h]
        simp
    · rw [if_neg h1] at h
      refine ⟨[], ?_⟩
      rw [← Option.some_inj.mp h]
      simp

/-- The leg walk only appends to the waypoint list. -/
theorem walkF_append (d : Coord K → Coord K → K) (spacing : K) :
    ∀ (legs : List (Coord K × Coord K)) (fuel : ℕ) (ws : List (Coord K)) (acc : K)
      (r : List (Coord K) × K),
      walkF d spacing fuel legs ws acc = some r → ∃ t, r.1 = ws ++ t := by
  intro legs
  induction legs with
  | nil =>
    intro fuel ws acc r h
    simp only [walkF, Option.some_inj] at h
    refine ⟨[], ?_⟩
    rw [← h]
    simp
  | cons pc rest ih =>
    intro fuel ws acc r h
    obtain ⟨p, c⟩ := pc
    simp only [walkF] at h
    cases hin : innerF spacing p c (d p c) fuel ws acc (d p c) 0 with
    | none => rw [hin] at h; exact absurd h (by simp)
    | some st =>
      rw [hin] at h
      obtain ⟨ws2, acc2, rem2, sst2⟩ := st
      dsimp only at h
      obtain ⟨t1, ht1⟩ := innerF_append spacing p c (d p c) fuel ws acc (d p c) 0 _ hin
      obtain ⟨t2, ht2⟩ := ih fuel ws2 (acc2 + rem2) r h
      dsimp only at ht1
      refine ⟨t1 ++ t2, ?_⟩
      rw [ht2, ht1, List.append_assoc]

/-- The resampler starts its output with the first input point. -/
theorem resample_headD (d : Coord K → Coord K → K) (spacing : K) (fuel : ℕ)
    (geometry : List (Coord K)) (r : List (Coord K))
    (h : interpolate_waypoints_along_geometry d spacing fuel geometry = some r) :
    r.headD coord0 = geometry.headD coord0 := by
  simp only [interpolate_waypoints_along_geometry] at h
  by_cases hlen : geometry.length < 2
  · rw [if_pos hlen] at h
    rw [← Option.some_inj.mp h]
  · rw [if_neg hlen] at h
    cases hw : walkF d spacing fuel (geometry.zip geometry.tail) [geometry.headD coord0] 0 with
    | none => rw [hw] at h; exact absurd h (by simp)
    | some st =>
      rw [hw] at h
      obtain ⟨ws, accf⟩ := st
      dsimp only at h
      obtain ⟨t, ht⟩ := walkF_append d spacing _ fuel _ _ _ hw
      dsimp only at ht
      rw [← Option.some_inj.mp h]
      split
      · rw [ht, List.singleton_append, List.headD_cons]
      · rw [ht, List.append_assoc, List.singleton_append, List.headD_cons]

/-- The resampler ends its output with the last input point. -/
theorem resample_getLastD (d : Coord K → Coord K → K) (spacing : K) (fuel : ℕ)
    (geometry : List (Coord K)) (r : List (Coord K))
    (h : interpolate_waypoints_along_geometry d spacing fuel geometry = some r) :
    r.getLastD coord0 = geometry.getLastD coord0 := by
  simp only [interpolate_waypoints_along_geometry] at h
  by_cases hlen : geometry.length < 2
  · rw [if_pos hlen] at h
    rw [← Option.some_inj.mp h]
  · rw [if_neg hlen] at h
    cases hw : walkF d spacing fuel (geometry.zip geometry.tail) [geometry.headD coord0] 0 with
    | none => rw [hw] at h; exact absurd h (by simp)
    | some st =>
      rw [hw] at h
      obtain ⟨ws, accf⟩ := st
      dsimp only at h
      rw [← Option.some_inj.mp h]
      by_cases heq : ws.getLastD coord0 = geometry.getLastD coord0
      · rw [if_pos heq]
        exact heq
      · rw [if_neg heq, List.getLastD_eq_getLast?, List.getLast?_concat]
        rfl

/-- C3 amended (Endpoint preservation): for a segment of at least 2
coordinates, when the gateway returns NONE the first and last output
point of normalize_segment equal the first and last input coordinate
exactly; when the gateway returns a geometry, the first and last output
point equal the first and last point of that matched geometry (which
need not coincide with the input endpoints). -/
theorem endpoint_preservation (d : Coord K → Coord K → K) (resp : OsrmResp K)
    (spacing : K) (fuel : ℕ) (coords : List (Coord K)) (h2 : 2 ≤ coords.length) :
    (call_osrm_match resp fuel coords 80 = some none →
      ∃ r, normalize_segment d resp spacing fuel coords = some r ∧
        r.headD coord0 = coords.headD coord0 ∧
        r.getLastD coord0 = coords.getLastD coord0) ∧
    (∀ g r, call_osrm_match resp fuel coords 80 = some (some g) →
      normalize_segment d resp spacing fuel coords = some r →
      r.headD coord0 = g.headD coord0 ∧ r.getLastD coord0 = g.getLastD coord0) := by
  constructor
  · intro hfail
    have hbase : normalize_segment d resp spacing fuel coords =
        (if d (coords.headD coord0) (coords.getLastD coord0) ≤ spacing then
          some [coords.headD coord0, coords.getLastD coord0]
        else
          some ((List.range (max 2 (pyInt
              (d (coords.headD coord0) (coords.getLastD coord0) / spacing) + 1)).toNat).map
            (fun i : ℕ => interpolate_point (coords.headD coord0) (coords.getLastD coord0)
              ((i : K) / (((max 2 (pyInt
                (d (coords.headD coord0) (coords.getLastD coord0) / spacing) + 1)).toNat : K)
                - 1))))) := by
      simp only [normalize_segment]
      rw [if_neg (by omega), hfail]
    set s := coords.headD coord0 with hs
    set e := coords.getLastD coord0 with he
    by_cases hd : d s e ≤ spacing
    · rw [if_pos hd] at hbase
      exact ⟨[s, e], hbase, rfl, rfl⟩
    · rw [if_neg hd] at hbase
      set N := (max 2 (pyInt (d s e / spacing) + 1)).toNat with hN
      have hN2 : 2 ≤ N := by
        have := le_max_left 2 (pyInt (d s e / spacing) + 1)
        omega
      have hNK1 : ((N : K) - 1) ≠ 0 := by
        have hNK : (2 : K) ≤ (N : K) := by exact_mod_cast hN2
        intro hcon
        have : (N : K) = 1 := by linarith
        linarith
      refine ⟨(List.range N).map
        (fun i : ℕ => interpolate_point s e ((i : K) / ((N : K) - 1))), hbase, ?_, ?_⟩
      · rw [headD_eq_getD, getD_map_range _ (by omega : 0 < N)]
        simp [interpolate_point]
      · rw [getLastD_eq_getD, List.length_map, List.length_range]
        rw [getD_map_range _ (by omega : N - 1 < N)]
        have hcast : ((N - 1 : ℕ) : K) = (N : K) - 1 := by
          have h1 : 1 ≤ N := by omega
          push_cast [h1]
          ring
        rw [hcast, div_self hNK1]
        simp only [interpolate_point, mul_one]
        rw [Prod.ext_iff]
        constructor <;> ring_nf
  · intro g r hok hr
    simp only [normalize_segment] at hr
    rw [if_neg (by omega), hok] at hr
    exact ⟨resample_headD d spacing fuel g r hr, resample_getLastD d spacing fuel g r hr⟩

end Claims3

/-- Counterexample to C3 as stated: with a successful match whose
geometry starts at (5,5), the first output point of normalize_segment
differs from the first input coordinate (0,0), refuting endpoint
preservation in the successful-match case. -/
theorem endpoint_preservation_counterexample :
    2 ≤ twoPts.length ∧
    call_osrm_match respGeom 9 twoPts 80 = some (some [(5, 5), (6, 6)]) ∧
    normalize_segment dConst50 respGeom 20 9 twoPts =
      some [(5, 5), (27/5, 27/5), (29/5, 29/5), (6, 6)] ∧
    ([((5 : ℚ), (5 : ℚ)), (27/5, 27/5), (29/5, 29/5), (6, 6)].headD coord0 ≠
      twoPts.headD coord0) :=
  ⟨by with_unfolding_all decide, by with_unfolding_all decide,
   by with_unfolding_all decide, by with_unfolding_all decide⟩

/-- Witness for endpoint_preservation: both branches exercised — the
failing oracle keeps the input endpoints, the succeeding oracle keeps
the matched geometry endpoints. -/
theorem endpoint_preservation_witness :
    (2 ≤ twoPts.length ∧ call_osrm_match respEmptyM 1 twoPts 80 = some none ∧
      (∃ r, normalize_segment dConst50 respEmptyM 20 1 twoPts = some r ∧
        r.headD coord0 = twoPts.headD coord0 ∧
        r.getLastD coord0 = twoPts.getLastD coord0)) ∧
    (call_osrm_match respGeom 9 twoPts 80 = some (some [(5, 5), (6, 6)]) ∧
      normalize_segment dConst50 respGeom 20 9 twoPts =
        some [(5, 5), (27/5, 27/5), (29/5, 29/5), (6, 6)] ∧
      ([((5 : ℚ), (5 : ℚ)), (27/5, 27/5), (29/5, 29/5), (6, 6)].headD coord0 =
          ([((5 : ℚ), (5 : ℚ)), (6, 6)] : List (Coord ℚ)).headD coord0 ∧
        [((5 : ℚ), (5 : ℚ)), (27/5, 27/5), (29/5, 29/5), (6, 6)].getLastD coord0 =
          ([((5 : ℚ), (5 : ℚ)), (6, 6)] : List (Coord ℚ)).getLastD coord0)) :=
  ⟨⟨by with_unfolding_all decide, by with_unfolding_all decide,
    (endpoint_preservation dConst50 respEmptyM 20 1 twoPts
      (by with_unfolding_all decide)).1 (by with_unfolding_all decide)⟩,
   ⟨by with_unfolding_all decide, by with_unfolding_all decide,
    (endpoint_preservation dConst50 respGeom 20 9 twoPts
      (by with_unfolding_all decide)).2 [((5 : ℚ), (5 : ℚ)), (6, 6)]
      [((5 : ℚ), (5 : ℚ)), (27/5, 27/5), (29/5, 29/5), (6, 6)]
      (by with_unfolding_all decide) (by with_unfolding_all decide)⟩⟩

/-- C9 (Distance algebra): the haversine distance of the source is
symmetric in its two points and vanishes on identical points, over the
reals. -/
theorem haversine_symm_self :
    (∀ lat1 lon1 lat2 lon2 : ℝ,
      haversine_distance lat1 lon1 lat2 lon2 = haversine_distance lat2 lon2 lat1 lon1) ∧
    (∀ lat lon : ℝ, haversine_distance lat lon lat lon = 0) := by
  constructor
  · intro lat1 lon1 lat2 lon2
    simp only [haversine_distance]
    have h1 : radians (lat1 - lat2) = -radians (lat2 - lat1) := by
      simp only [radians]; ring
    have h2 : radians (lon1 - lon2) = -radians (lon2 - lon1) := by
      simp only [radians]; ring
    have ha : Real.sin (radians (lat1 - lat2) / 2) ^ 2 +
        Real.cos (radians lat2) * Real.cos (radians lat1) *
          Real.sin (radians (lon1 - lon2) / 2) ^ 2 =
        Real.sin (radians (lat2 - lat1) / 2) ^ 2 +
        Real.cos (radians lat1) * Real.cos (radians lat2) *
          Real.sin (radians (lon2 - lon1) / 2) ^ 2 := by
      rw [h1, h2, neg_div, neg_div, Real.sin_neg, Real.sin_neg, neg_sq, neg_sq]
      ring
    rw [ha]
  · intro lat lon
    simp only [haversine_distance, sub_self]
    have h0 : radians 0 = 0 := by simp [radians]
    have hat : atan2 0 1 = 0 := by
      simp only [atan2]
      rw [if_pos one_pos]
      simp [Real.arctan_zero]
    rw [h0]
    simp only [zero_div, Real.sin_zero, ne_eq, OfNat.ofNat_ne_zero, not_false_eq_true,
      zero_pow, mul_zero, add_zero, Real.sqrt_zero, sub_zero, Real.sqrt_one, hat, mul_zero]


section Claims8

variable {K : Type} [LinearOrderedField K] [FloorRing K]

/-- Fuel monotonicity of the inner resampling loop (one step). -/
theorem innerF_mono (spacing : K) (p c : Coord K) (segdist : K) :
    ∀ (fuel : ℕ) (ws : List (Coord K)) (acc rem sst : K) (r : List (Coord K) × K × K × K),
      innerF spacing p c segdist fuel ws acc rem sst = some r →
      innerF spacing p c segdist (fuel + 1) ws acc rem sst = some r := by
  intro fuel
  induction fuel with
  | zero =>
    intro ws acc rem sst r h
    exact absurd h (by simp [innerF])
  | succ n ih =>
    intro ws acc rem sst r h
    simp only [innerF] at h ⊢
    by_cases h1 : spacing ≤ acc + rem
    · rw [if_pos h1] at h ⊢
      by_cases hf : sst + (spacing - acc) / segdist ≤ 1
      · rw [if_pos hf] at h ⊢
        exact ih _ _ _ _ _ h
      · rw [if_neg hf] at h ⊢
        exact h
    · rw [if_neg h1] at h ⊢
      exact h

/-- Fuel monotonicity of the inner resampling loop. -/
theorem innerF_mono_le (spacing : K) (p c : Coord K) (segdist : K)
    {f1 f2 : ℕ} (hle : f1 ≤ f2) :
    ∀ {ws : List (Coord K)} {acc rem sst : K} {r : List (Coord K) × K × K × K},
      innerF spacing p c segdist f1 ws acc rem sst = some r →
      innerF spacing p c segdist f2 ws acc rem sst = some r := by
  induction f2, hle using Nat.le_induction with
  | base => exact fun h => h
  | succ n hn ih =>
    intro ws acc rem sst r h
    exact innerF_mono spacing p c segdist n _ _ _ _ _ (ih h)

/-- With positive spacing the inner loop terminates: any fuel beyond
the floor of (acc + rem) / spacing suffices. -/
theorem innerF_exists (spacing : K) (hsp : 0 < spacing) (p c : Coord K) (segdist : K) :
    ∀ (fuel : ℕ) (ws : List (Coord K)) (acc rem sst : K),
      (⌊(acc + rem) / spacing⌋).toNat < fuel →
      (innerF spacing p c segdist fuel ws acc rem sst).isSome := by
  intro fuel
  induction fuel with
  | zero => intro ws acc rem sst h; omega
  | succ n ih =>
    intro ws acc rem sst hmu
    rw [innerF]
    by_cases h1 : spacing ≤ acc + rem
    · rw [if_pos h1]
      by_cases hf : sst + (spacing - acc) / segdist ≤ 1
      · rw [if_pos hf]
        apply ih
        have hne : spacing ≠ 0 := ne_of_gt hsp
        have harith : (0 : K) + (rem - (spacing - acc)) = (acc + rem) - spacing := by ring
        have ht : ((0 : K) + (rem - (spacing - acc))) / spacing =
            (acc + rem) / spacing - 1 := by
          rw [harith, sub_div, div_self hne]
        have hfl : ⌊((0 : K) + (rem - (spacing - acc))) / spacing⌋ =
            ⌊(acc + rem) / spacing⌋ - 1 := by
          rw [ht, Int.floor_sub_one]
        have hge1 : 1 ≤ ⌊(acc + rem) / spacing⌋ := by
          rw [Int.le_floor]
          exact_mod_cast (one_le_div hsp).mpr h1
        omega
      · rw [if_neg hf]
        simp
    · rw [if_neg h1]
      simp

/-- Fuel monotonicity of the leg walk (one step). -/
theorem walkF_mono (d : Coord K → Coord K → K) (spacing : K) :
    ∀ (legs : List (Coord K × Coord K)) (fuel : ℕ) (ws : List (Coord K)) (acc : K)
      (r : List (Coord K) × K),
      walkF d spacing fuel legs ws acc = some r →
      walkF d spacing (fuel + 1) legs ws acc = some r := by
  intro legs
  induction legs with
  | nil =>
    intro fuel ws acc r h
    simpa [walkF] using h
  | cons pc rest ih =>
    intro fuel ws acc r h
    obtain ⟨p, c⟩ := pc
    simp only [walkF] at h ⊢
    cases hin : innerF spacing p c (d p c) fuel ws acc (d p c) 0 with
    | none => rw [hin] at h; exact absurd h (by simp)
    | some st =>
      rw [hin] at h
      rw [innerF_mono spacing p c (d p c) fuel _ _ _ _ _ hin]
      obtain ⟨ws2, acc2, rem2, sst2⟩ := st
      dsimp only at h ⊢
      exact ih fuel ws2 (acc2 + rem2) r h

/-- Fuel monotonicity of the leg walk. -/
theorem walkF_mono_le (d : Coord K → Coord K → K) (spacing : K)
    (legs : List (Coord K × Coord K)) {f1 f2 : ℕ} (hle : f1 ≤ f2) :
    ∀ {ws : List (Coord K)} {acc : K} {r : List (Coord K) × K},
      walkF d spacing f1 legs ws acc = some r →
      walkF d spacing f2 legs ws acc = some r := by
  induction f2, hle using Nat.le_induction with
  | base => exact fun h => h
  | succ n hn ih =>
    intro ws acc r h
    exact walkF_mono d spacing legs n _ _ _ (ih h)

/-- With positive spacing the leg walk terminates for some fuel. -/
theorem walkF_exists (d : Coord K → Coord K → K) (spacing : K) (hsp : 0 < spacing) :
    ∀ (legs : List (Coord K × Coord K)) (ws : List (Coord K)) (acc : K),
      ∃ fuel, (walkF d spacing fuel legs ws acc).isSome := by
  intro legs
  induction legs with
  | nil =>
    intro ws acc
    exact ⟨0, by simp [walkF]⟩
  | cons pc rest ih =>
    intro ws acc
    obtain ⟨p, c⟩ := pc
    have h1 : (innerF spacing p c (d p c) ((⌊(acc + d p c) / spacing⌋).toNat + 1)
        ws acc (d p c) 0).isSome :=
      innerF_exists spacing hsp p c (d p c) _ ws acc (d p c) 0 (by omega)
    obtain ⟨st, hst⟩ := Option.isSome_iff_exists.mp h1
    obtain ⟨ws2, acc2, rem2, sst2⟩ := st
    obtain ⟨f2, h2⟩ := ih ws2 (acc2 + rem2)
    obtain ⟨r2, hr2⟩ := Option.isSome_iff_exists.mp h2
    refine ⟨max ((⌊(acc + d p c) / spacing⌋).toNat + 1) f2, ?_⟩
    simp only [walkF]
    rw [innerF_mono_le spacing p c (d p c) (le_max_left _ f2) hst]
    dsimp only
    rw [walkF_mono_le d spacing rest (le_max_right _ f2) hr2]
    simp

/-- C8 amended (Resampler endpoint emission): for every geometry with
at least 2 points and every spacing > 0, the resampler terminates, its
output begins with exactly the first input point and ends with exactly
the last input point, and when the walk already ends with the last
input point that point is not emitted a second time. -/
theorem resampler_endpoint_emission (d : Coord K → Coord K → K) (spacing : K)
    (geometry : List (Coord K)) (hsp : 0 < spacing) (hlen : 2 ≤ geometry.length) :
    ∃ (fuel : ℕ) (w : List (Coord K)) (accf : K) (r : List (Coord K)),
      walkF d spacing fuel (geometry.zip geometry.tail) [geometry.headD coord0] 0 =
        some (w, accf) ∧
      interpolate_waypoints_along_geometry d spacing fuel geometry = some r ∧
      r.headD coord0 = geometry.headD coord0 ∧
      r.getLastD coord0 = geometry.getLastD coord0 ∧
      (w.getLastD coord0 = geometry.getLastD coord0 → r = w) := by
  obtain ⟨fuel, hsome⟩ := walkF_exists d spacing hsp (geometry.zip geometry.tail)
    [geometry.headD coord0] 0
  obtain ⟨st, hst⟩ := Option.isSome_iff_exists.mp hsome
  obtain ⟨w, accf⟩ := st
  have hr : interpolate_waypoints_along_geometry d spacing fuel geometry =
      some (if w.getLastD coord0 = geometry.getLastD coord0 then w
            else w ++ [geometry.getLastD coord0]) := by
    simp only [interpolate_waypoints_along_geometry]
    rw [if_neg (by omega), hst]
  refine ⟨fuel, w, accf, _, hst, hr, resample_headD d spacing fuel geometry _ hr,
    resample_getLastD d spacing fuel geometry _ hr, ?_⟩
  intro heq
  rw [if_pos heq]

end Claims8

/-- Witness for resampler_endpoint_emission at a concrete geometry,
distance oracle and spacing 20. -/
theorem resampler_endpoint_emission_witness :
    ((0 : ℚ) < 20 ∧ 2 ≤ twoPts.length) ∧
    (∃ (fuel : ℕ) (w : List (Coord ℚ)) (accf : ℚ) (r : List (Coord ℚ)),
      walkF dConst50 20 fuel (twoPts.zip twoPts.tail) [twoPts.headD coord0] 0 =
        some (w, accf) ∧
      interpolate_waypoints_along_geometry dConst50 20 fuel twoPts = some r ∧
      r.headD coord0 = twoPts.headD coord0 ∧
      r.getLastD coord0 = twoPts.getLastD coord0 ∧
      (w.getLastD coord0 = twoPts.getLastD coord0 → r = w)) :=
  ⟨⟨by with_unfolding_all decide, by with_unfolding_all decide⟩,
   resampler_endpoint_emission dConst50 20 twoPts
     (by with_unfolding_all decide) (by with_unfolding_all decide)⟩

/-- At spacing 0 the inner loop of the resampler never terminates: the
state reproduces itself while the waypoint list grows. -/
theorem innerF_spacing_zero_diverges :
    ∀ (f : ℕ) (ws : List (Coord ℚ)),
      innerF (0 : ℚ) ((0 : ℚ), (0 : ℚ)) (1, 1) 100 f ws 0 100 0 = none := by
  intro f
  induction f with
  | zero => intro ws; rfl
  | succ n ih =>
    intro ws
    have hstep : innerF (0 : ℚ) ((0 : ℚ), (0 : ℚ)) (1, 1) 100 (n + 1) ws 0 100 0 =
        innerF (0 : ℚ) ((0 : ℚ), (0 : ℚ)) (1, 1) 100 n (ws ++ [(0, 0)]) 0 100 0 := by
      with_unfolding_all rfl
    rw [hstep, ih]

/-- Counterexample to C8 as stated: for spacing 0 (a spacing the claim
quantifies over) the source loop diverges, so the resampler returns no
sequence at all for the two-point geometry, whatever the fuel. -/
theorem resampler_endpoint_emission_counterexample :
    2 ≤ twoPts.length ∧
    ¬ ∃ (fuel : ℕ) (r : List (Coord ℚ)),
        interpolate_waypoints_along_geometry dConst100 0 fuel twoPts = some r := by
  constructor
  · decide
  · rintro ⟨fuel, r, h⟩
    have hw : walkF dConst100 (0 : ℚ) fuel (twoPts.zip twoPts.tail)
        [twoPts.headD coord0] 0 = none := by
      have h1 : walkF dConst100 (0 : ℚ) fuel (twoPts.zip twoPts.tail)
          [twoPts.headD coord0] 0 =
          walkF dConst100 (0 : ℚ) fuel [(((0 : ℚ), (0 : ℚ)), (1, 1))] [(0, 0)] 0 := by
        with_unfolding_all rfl
      rw [h1, walkF]
      have h2 : dConst100 ((0 : ℚ), (0 : ℚ)) ((1 : ℚ), (1 : ℚ)) = 100 := rfl
      rw [h2, innerF_spacing_zero_diverges fuel [(0, 0)]]
    rw [interpolate_waypoints_along_geometry] at h
    rw [if_neg (by decide), hw] at h
    exact absurd h (by simp)

section Claims5

variable {K : Type} [LinearOrderedField K] [FloorRing K]

/-- With an oracle that always fails or returns an empty result set,
every chunk request returns None. -/
theorem chunk_fail (resp : OsrmResp K) (hresp : ∀ q, resp q = none ∨ resp q = some [])
    (coords : List (Coord K)) : call_osrm_match_chunk resp coords = none := by
  simp only [call_osrm_match_chunk]
  by_cases h2 : coords.length < 2
  · rw [if_pos h2]
  · rw [if_neg h2]
    rcases hresp coords with h | h
    · rw [h]
    · rw [h]
      rfl

/-- With an always-failing oracle the chunking loop returns None softly,
for fuel at least the coordinate count. -/
theorem matchLoop_fail (resp : OsrmResp K) (hresp : ∀ q, resp q = none ∨ resp q = some []) :
    ∀ (n : ℕ) (coords : List (Coord K)) (cs i : ℕ) (acc : List (Coord K)) (fuel : ℕ),
      coords.length ≤ n → i < coords.length → cs < coords.length → n ≤ fuel →
      matchLoop resp fuel coords cs i acc = some none := by
  intro n
  induction n with
  | zero => intro coords cs i acc fuel h1 h2 _ _; omega
  | succ m ih =>
    intro coords cs i acc fuel hlen hi hcs hfn
    obtain ⟨f, rfl⟩ : ∃ f, fuel = f + 1 := ⟨fuel - 1, by omega⟩
    simp only [matchLoop, if_pos hi, chunk_fail resp hresp]
    have hchlen : ((coords.drop i).take (min (i + cs) coords.length - i)).length ≤ cs := by
      rw [List.length_take, List.length_drop]
      omega
    by_cases h20 : 20 < ((coords.drop i).take (min (i + cs) coords.length - i)).length
    · rw [if_pos h20]
      rw [if_neg (by omega), if_neg (by omega)]
      rw [ih ((coords.drop i).take (min (i + cs) coords.length - i))
        (((coords.drop i).take (min (i + cs) coords.length - i)).length / 2) 0 [] f
        (by omega) (by omega) (by omega) (by omega)]
    · rw [if_neg h20]

/-- C5 (Match failure is total and soft): call_osrm_match returns NONE
when the input has fewer than 2 points, and whenever every service
request fails — a transport failure or a non-success response code
(both modelled by the oracle answering none) or an Ok response with an
empty matchings set — the call returns NONE on any input, for fuel at
least the input length.  The model is a total function, so the failure
is never escalated to an error in the caller. -/
theorem match_failure_soft (resp : OsrmResp K) (fuel : ℕ) (coords : List (Coord K))
    (cs : ℕ) :
    (coords.length < 2 → call_osrm_match resp fuel coords cs = some none) ∧
    ((∀ q, resp q = none ∨ resp q = some []) → coords.length ≤ fuel →
      call_osrm_match resp fuel coords cs = some none) := by
  constructor
  · intro h
    simp only [call_osrm_match]
    rw [if_pos h]
  · intro hresp hfuel
    simp only [call_osrm_match]
    by_cases h2 : coords.length < 2
    · rw [if_pos h2]
    · rw [if_neg h2]
      by_cases hcs : coords.length ≤ cs
      · rw [if_pos hcs, chunk_fail resp hresp]
      · rw [if_neg hcs]
        exact matchLoop_fail resp hresp coords.length coords cs 0 [] fuel le_rfl
          (by omega) (by omega) hfuel

end Claims5

/-- Witness for match_failure_soft: the empty input and, separately, a
six-point input with chunk size 5 under the always-failing oracle
(exercising the chunking loop and the soft failure). -/
theorem match_failure_soft_witness :
    (([] : List (Coord ℚ)).length < 2 ∧
      call_osrm_match respNone 0 ([] : List (Coord ℚ)) 80 = some none) ∧
    ((∀ q, respNone q = none ∨ respNone q = some []) ∧ sixPts.length ≤ 6 ∧
      call_osrm_match respNone 6 sixPts 5 = some none) :=
  ⟨⟨by decide, (match_failure_soft respNone 0 ([] : List (Coord ℚ)) 80).1 (by decide)⟩,
   ⟨fun _ => Or.inl rfl, by with_unfolding_all decide,
    (match_failure_soft respNone 6 sixPts 5).2 (fun _ => Or.inl rfl)
      (by with_unfolding_all decide)⟩⟩

section Claims7

variable {K : Type} [LinearOrderedField K] [FloorRing K]

/-- The duplicate-guarding fold preserves the no-adjacent-duplicates
invariant, whatever points are folded in. -/
theorem chain_dedupAppend : ∀ (pts acc : List (Coord K)),
    List.Chain' (· ≠ ·) acc → List.Chain' (· ≠ ·) (dedupAppend acc pts) := by
  intro pts
  induction pts with
  | nil => intro acc h; exact h
  | cons p rest ih =>
    intro acc h
    have hstep : dedupAppend acc (p :: rest) =
        dedupAppend (if acc.getLast? = some p then acc else acc ++ [p]) rest := rfl
    rw [hstep]
    apply ih
    by_cases hl : acc.getLast? = some p
    · rw [if_pos hl]
      exact h
    · rw [if_neg hl]
      rw [List.chain'_append]
      refine ⟨h, List.chain'_singleton p, ?_⟩
      intro x hx y hy
      simp only [List.head?_cons, Option.mem_def, Option.some_inj] at hy
      subst hy
      rw [Option.mem_def] at hx
      intro hxy
      exact hl (by rw [← hxy]; exact hx)

/-- A chunk geometry never holds two equal adjacent points. -/
theorem chain_chunk (resp : OsrmResp K) (coords g : List (Coord K))
    (h : call_osrm_match_chunk resp coords = some g) : List.Chain' (· ≠ ·) g := by
  simp only [call_osrm_match_chunk] at h
  by_cases h2 : coords.length < 2
  · rw [if_pos h2] at h
    exact absurd h (by simp)
  · rw [if_neg h2] at h
    cases hr : resp coords with
    | none => rw [hr] at h; exact absurd h (by simp)
    | some matchings =>
      rw [hr] at h
      dsimp only at h
      by_cases hm : matchings.isEmpty
      · rw [if_pos hm] at h
        exact absurd h (by simp)
      · rw [if_neg hm] at h
        by_cases ha : (matchings.foldl (fun a g => dedupAppend a g) []).isEmpty
        · rw [if_pos ha] at h
          exact absurd h (by simp)
        · rw [if_neg ha] at h
          have hfold : ∀ (ms : List (List (Coord K))) (acc : List (Coord K)),
              List.Chain' (· ≠ ·) acc →
              List.Chain' (· ≠ ·) (ms.foldl (fun a g => dedupAppend a g) acc) := by
            intro ms
            induction ms with
            | nil => intro acc hacc; exact hacc
            | cons mg rest ihm =>
              intro acc hacc
              exact ihm (dedupAppend acc mg) (chain_dedupAppend mg acc hacc)
          rw [← Option.some_inj.mp h]
          exact hfold matchings [] List.chain'_nil

/-- Merging a duplicate-free chunk geometry into a duplicate-free
accumulated geometry stays duplicate-free. -/
theorem chain_mergeGeometry (acc pts : List (Coord K))
    (hacc : List.Chain' (· ≠ ·) acc) (hpts : List.Chain' (· ≠ ·) pts) :
    List.Chain' (· ≠ ·) (mergeGeometry acc pts) := by
  rw [mergeGeometry]
  by_cases he : acc.isEmpty
  · rw [if_pos he]
    have hnil : acc = [] := List.isEmpty_iff.mp he
    subst hnil
    simpa using hpts
  · rw [if_neg he]
    exact chain_dedupAppend pts acc hacc

/-- Every geometry produced by the chunking loop from a duplicate-free
accumulator is duplicate-free. -/
theorem matchLoop_chain (resp : OsrmResp K) :
    ∀ (fuel : ℕ) (coords : List (Coord K)) (cs i : ℕ) (acc g : List (Coord K)),
      List.Chain' (· ≠ ·) acc →
      matchLoop resp fuel coords cs i acc = some (some g) →
      List.Chain' (· ≠ ·) g := by
  intro fuel
  induction fuel with
  | zero =>
    intro coords cs i acc g _ h
    exact absurd h (by simp [matchLoop])
  | succ n ih =>
    intro coords cs i acc g hacc h
    simp only [matchLoop] at h
    split at h
    · split at h
      next cg heq =>
        exact ih coords cs _ _ g
          (chain_mergeGeometry acc cg hacc (chain_chunk resp _ cg heq)) h
      next heq =>
        split at h
        · split at h
          · exact absurd h (by simp)
          · exact absurd h (by simp)
          next cg hre =>
            split at h
            · exact absurd h (by simp)
            · have hcg : List.Chain' (· ≠ ·) cg := by
                split at hre
                · exact absurd hre (by simp)
                · split at hre
                  · exact chain_chunk resp _ cg (Option.some_inj.mp hre)
                  · exact ih _ _ _ _ cg List.chain'_nil hre
              exact ih coords cs _ _ g (chain_mergeGeometry acc cg hacc hcg) h
        · exact absurd h (by simp)
    · have hg : g = acc := by
        by_cases hae : acc.isEmpty
        · rw [if_pos hae] at h
          exact absurd h (by simp)
        · rw [if_neg hae] at h
          exact (Option.some_inj.mp (Option.some_inj.mp h ▸ rfl)).symm
      rw [hg]
      exact hacc

/-- C7 (Chunk-merge continuity): whenever call_osrm_match returns a
geometry — through a single request or through chunking with retries —
no two adjacent points of that geometry are equal. -/
theorem chunk_merge_continuity (resp : OsrmResp K) (fuel : ℕ) (coords : List (Coord K))
    (cs : ℕ) (g : List (Coord K))
    (h : call_osrm_match resp fuel coords cs = some (some g)) :
    List.Chain' (· ≠ ·) g := by
  simp only [call_osrm_match] at h
  split at h
  · exact absurd h (by simp)
  · split at h
    · exact chain_chunk resp coords g (Option.some_inj.mp h)
    · exact matchLoop_chain resp fuel coords cs 0 [] g List.chain'_nil h

end Claims7

/-- Witness for chunk_merge_continuity: a concrete successful match
whose two-point geometry has no adjacent duplicates. -/
theorem chunk_merge_continuity_witness :
    call_osrm_match respGeom 1 twoPts 80 = some (some [(5, 5), (6, 6)]) ∧
    List.Chain' (· ≠ ·) ([((5 : ℚ), (5 : ℚ)), (6, 6)] : List (Coord ℚ)) :=
  ⟨by with_unfolding_all decide,
   chunk_merge_continuity respGeom 1 twoPts 80 [(5, 5), (6, 6)]
     (by with_unfolding_all decide)⟩

section Claims6

variable {K : Type} [LinearOrderedField K] [FloorRing K]

/-- Fuel monotonicity of the chunking loop: a result obtained with some
fuel is obtained with any larger fuel. -/
theorem matchLoop_mono (resp : OsrmResp K) :
    ∀ (f1 f2 : ℕ) (coords : List (Coord K)) (cs i : ℕ) (acc : List (Coord K))
      (r : Option (List (Coord K))),
      f1 ≤ f2 → matchLoop resp f1 coords cs i acc = some r →
      matchLoop resp f2 coords cs i acc = some r := by
  intro f1
  induction f1 with
  | zero =>
    intro f2 coords cs i acc r _ h
    exact absurd h (by simp [matchLoop])
  | succ n ih =>
    intro f2 coords cs i acc r hle h
    obtain ⟨m, rfl⟩ : ∃ m, f2 = m + 1 := ⟨f2 - 1, by omega⟩
    have hnm : n ≤ m := by omega
    simp only [matchLoop] at h ⊢
    by_cases hi : i < coords.length
    · rw [if_pos hi] at h ⊢
      cases hq : call_osrm_match_chunk resp
          ((coords.drop i).take (min (i + cs) coords.length - i)) with
      | some cg =>
        rw [hq] at h
        dsimp only at h ⊢
        exact ih m _ _ _ _ _ hnm h
      | none =>
        rw [hq] at h
        dsimp only at h ⊢
        by_cases h20 : 20 < ((coords.drop i).take (min (i + cs) coords.length - i)).length
        · rw [if_pos h20] at h ⊢
          rw [if_neg (by omega), if_neg (by omega)] at h ⊢
          cases hrem : matchLoop resp n
              ((coords.drop i).take (min (i + cs) coords.length - i))
              (((coords.drop i).take (min (i + cs) coords.length - i)).length / 2) 0 [] with
          | none =>
            rw [hrem] at h
            exact absurd h (by simp)
          | some rv =>
            rw [hrem] at h
            rw [ih m _ _ _ _ rv hnm hrem]
            cases rv with
            | none =>
              dsimp only at h ⊢
              exact h
            | some gg =>
              dsimp only at h ⊢
              by_cases hge : gg.isEmpty
              · rw [if_pos hge] at h ⊢
                exact h
              · rw [if_neg hge] at h ⊢
                exact ih m _ _ _ _ _ hnm h
        · rw [if_neg h20] at h ⊢
          exact h
    · rw [if_neg hi] at h ⊢
      exact h

/-- With a chunk size of at least 6 (strictly more than the 5-point
overlap) the chunking loop terminates for some fuel, whatever the
oracle answers. -/
theorem matchLoop_exists (resp : OsrmResp K) :
    ∀ (n : ℕ) (coords : List (Coord K)) (cs : ℕ),
      coords.length ≤ n → 6 ≤ cs → cs < coords.length →
      ∀ (k i : ℕ) (acc : List (Coord K)), coords.length - i ≤ k →
        ∃ fuel, (matchLoop resp fuel coords cs i acc).isSome := by
  intro n
  induction n with
  | zero =>
    intro coords cs hlen hcs6 hcslen k i acc hki
    omega
  | succ n1 ihn =>
    intro coords cs hlen hcs6 hcslen k
    induction k with
    | zero =>
      intro i acc hki
      refine ⟨1, ?_⟩
      rw [matchLoop, if_neg (by omega : ¬ i < coords.length)]
      simp
    | succ k1 ihk =>
      intro i acc hki
      by_cases hi : i < coords.length
      case neg =>
        refine ⟨1, ?_⟩
        rw [matchLoop, if_neg hi]
        simp
      case pos =>
        have hlt : i < (if min (i + cs) coords.length < coords.length then
            min (i + cs) coords.length - 5 else min (i + cs) coords.length) := by
          by_cases hc : min (i + cs) coords.length < coords.length
          · rw [if_pos hc]
            omega
          · rw [if_neg hc]
            omega
        cases hq : call_osrm_match_chunk resp
            ((coords.drop i).take (min (i + cs) coords.length - i)) with
        | some cg =>
          obtain ⟨f2, hf2⟩ := ihk (if min (i + cs) coords.length < coords.length then
              min (i + cs) coords.length - 5 else min (i + cs) coords.length)
            (mergeGeometry acc cg) (by omega)
          obtain ⟨r2, hr2⟩ := Option.isSome_iff_exists.mp hf2
          refine ⟨f2 + 1, ?_⟩
          simp only [matchLoop]
          rw [if_pos hi, hq]
          dsimp only
          rw [hr2]
          rfl
        | none =>
          have hchlen : ((coords.drop i).take (min (i + cs) coords.length - i)).length ≤ cs := by
            rw [List.length_take, List.length_drop]
            omega
          by_cases h20 : 20 < ((coords.drop i).take (min (i + cs) coords.length - i)).length
          · obtain ⟨f1, hf1⟩ := ihn ((coords.drop i).take (min (i + cs) coords.length - i))
              (((coords.drop i).take (min (i + cs) coords.length - i)).length / 2)
              (by omega) (by omega) (by omega)
              ((coords.drop i).take (min (i + cs) coords.length - i)).length 0 [] (by omega)
            obtain ⟨rv, hrv⟩ := Option.isSome_iff_exists.mp hf1
            cases rv with
            | none =>
              refine ⟨f1 + 1, ?_⟩
              simp only [matchLoop]
              rw [if_pos hi, hq]
              dsimp only
              rw [if_pos h20, if_neg (by omega), if_neg (by omega), hrv]
              rfl
            | some gg =>
              by_cases hgg : gg.isEmpty
              · refine ⟨f1 + 1, ?_⟩
                simp only [matchLoop]
                rw [if_pos hi, hq]
                dsimp only
                rw [if_pos h20, if_neg (by omega), if_neg (by omega), hrv]
                dsimp only
                rw [if_pos hgg]
                rfl
              · obtain ⟨f2, hf2⟩ := ihk (if min (i + cs) coords.length < coords.length then
                    min (i + cs) coords.length - 5 else min (i + cs) coords.length)
                  (mergeGeometry acc gg) (by omega)
                obtain ⟨r2, hr2⟩ := Option.isSome_iff_exists.mp hf2
                refine ⟨max f1 f2 + 1, ?_⟩
                simp only [matchLoop]
                rw [if_pos hi, hq]
                dsimp only
                rw [if_pos h20, if_neg (by omega), if_neg (by omega)]
                rw [matchLoop_mono resp f1 (max f1 f2) _ _ _ _ (some gg) (le_max_left f1 f2) hrv]
                dsimp only
                rw [if_neg hgg]
                rw [matchLoop_mono resp f2 (max f1 f2) _ _ _ _ r2 (le_max_right f1 f2) hr2]
                rfl
          · refine ⟨1, ?_⟩
            simp only [matchLoop]
            rw [if_pos hi, hq]
            dsimp only
            rw [if_neg h20]
            rfl

/-- C6 amended (Gateway termination): for every finite coordinate list,
every oracle, and every chunkSize strictly larger than the 5-point
overlap (the source only ever uses 80 at top level and at least 10 in
retries), call_osrm_match terminates: some finite fuel makes the
chunking loop and the adaptive halving retries finish. -/
theorem gateway_termination (resp : OsrmResp K) (coords : List (Coord K)) (cs : ℕ)
    (hcs : 6 ≤ cs) :
    ∃ fuel, (call_osrm_match resp fuel coords cs).isSome := by
  by_cases h2 : coords.length < 2
  · refine ⟨0, ?_⟩
    simp only [call_osrm_match]
    rw [if_pos h2]
    rfl
  · by_cases hcs2 : coords.length ≤ cs
    · refine ⟨0, ?_⟩
      simp only [call_osrm_match]
      rw [if_neg h2, if_pos hcs2]
      rfl
    · obtain ⟨fuel, hf⟩ := matchLoop_exists resp coords.length coords cs le_rfl hcs
        (by omega) coords.length 0 [] (by omega)
      refine ⟨fuel, ?_⟩
      simp only [call_osrm_match]
      rw [if_neg h2, if_neg hcs2]
      exact hf

end Claims6

/-- Witness for gateway_termination at a concrete input and chunk size
80. -/
theorem gateway_termination_witness :
    6 ≤ 80 ∧ ∃ fuel, (call_osrm_match respNone fuel twoPts 80).isSome :=
  ⟨by decide, gateway_termination respNone twoPts 80 (by decide)⟩

/-- At chunk size 5 — equal to the overlap — the window start never
advances (i becomes e - 5 = 0 again), so with six points and a service
that matches every window to the single point (0,0) the loop state
reproduces itself forever. -/
theorem matchLoop_cs5_diverges :
    ∀ f : ℕ, matchLoop respP00 f sixPts 5 0 [((0 : ℚ), (0 : ℚ))] = none := by
  intro f
  induction f with
  | zero => rfl
  | succ n ih =>
    have hstep : matchLoop respP00 (n + 1) sixPts 5 0 [((0 : ℚ), (0 : ℚ))] =
        matchLoop respP00 n sixPts 5 0 [((0 : ℚ), (0 : ℚ))] := by
      with_unfolding_all rfl
    rw [hstep, ih]

/-- Counterexample to C6 as stated: the claim quantifies over every
chunkSize, but at chunkSize 5 on six coordinates with an always-Ok
oracle the chunking loop never terminates — no fuel yields a result. -/
theorem gateway_termination_counterexample :
    ¬ ∃ fuel, (call_osrm_match respP00 fuel sixPts 5).isSome := by
  rintro ⟨fuel, hf⟩
  have hnone : call_osrm_match respP00 fuel sixPts 5 = none := by
    cases fuel with
    | zero => with_unfolding_all rfl
    | succ n =>
      have h1 : call_osrm_match respP00 (n + 1) sixPts 5 =
          matchLoop respP00 (n + 1) sixPts 5 0 [] := by
        with_unfolding_all rfl
      have h2 : matchLoop respP00 (n + 1) sixPts 5 0 [] =
          matchLoop respP00 n sixPts 5 0 [((0 : ℚ), (0 : ℚ))] := by
        with_unfolding_all rfl
      rw [h1, h2, matchLoop_cs5_diverges n]
  rw [hnone] at hf
  exact absurd hf (by simp)

section Claims10

variable {K : Type} [LinearOrderedField K] [FloorRing K]

/-- Adjacent pairs of a strictly sorted list are increasing. -/
theorem zip_tail_lt {l : List ℕ} (hl : List.Pairwise (· < ·) l) :
    ∀ p ∈ l.zip l.tail, p.1 < p.2 := by
  induction l with
  | nil => intro p hp; simp at hp
  | cons a t ih =>
    intro p hp
    cases t with
    | nil => simp at hp
    | cons b t2 =>
      simp only [List.tail_cons, List.zip_cons_cons, List.mem_cons] at hp
      rcases hp with rfl | hp
      · exact (List.pairwise_cons.mp hl).1 b (by simp)
      · exact ih (List.pairwise_cons.mp hl).2 p (by simpa using hp)

/-- Length of a source slice points[i : j + 1]. -/
theorem sliceCoords_length (ps : List (Point K)) (i j : ℕ) :
    (sliceCoords ps i j).length = min (j - i + 1) (ps.length - i) := by
  simp [sliceCoords]

/-- The stop indices are strictly increasing. -/
theorem stopIdxs_pairwise (ps : List (Point K)) :
    List.Pairwise (· < ·) (stopIdxs ps) :=
  (List.pairwise_lt_range ps.length).filter _

/-- Reading a list at an in-range index yields a member. -/
theorem getD_mem_of_lt {α : Type} (l : List α) (k : ℕ) (d0 : α) (h : k < l.length) :
    l.getD k d0 ∈ l := by
  rw [List.getD_eq_getElem l d0 h]
  exact List.getElem_mem h

/-- C10 (Degenerate-segment branch unreachable): for a route accepted
by normalize_route — at least 2 points and at least 2 stops — every
coordinate slice it hands to normalize_segment (the lead-in slice, each
stop-to-stop slice, the trail-out slice) has at least 2 coordinates, so
the branch of normalize_segment returning short input unchanged is
never taken and every call reaches the map-match path or the linear
fallback. -/
theorem degenerate_branch_unreachable (ps : List (Point K))
    (hpts : 2 ≤ ps.length) (hstops : 2 ≤ (stopIdxs ps).length) :
    ∀ s ∈ segmentSlices ps, 2 ≤ s.length := by
  intro s hs
  have hpw := stopIdxs_pairwise ps
  simp only [segmentSlices, List.mem_append] at hs
  rcases hs with (hs | hs) | hs
  · by_cases hc : 0 < (stopIdxs ps).headD 0
    · rw [if_pos hc] at hs
      simp only [List.mem_singleton] at hs
      subst hs
      rw [sliceCoords_length]
      have hmem : (stopIdxs ps).headD 0 ∈ stopIdxs ps := by
        rw [headD_eq_getD]
        exact getD_mem_of_lt _ 0 0 (by omega)
      have hlt := lt_length_of_mem_stopIdxs hmem
      omega
    · rw [if_neg hc] at hs
      simp at hs
  · obtain ⟨ij, hij, rfl⟩ := List.mem_map.mp hs
    obtain ⟨a, b⟩ := ij
    have hab : a < b := zip_tail_lt hpw (a, b) hij
    have hbmem : b ∈ stopIdxs ps :=
      List.mem_of_mem_tail (List.of_mem_zip hij).2
    have hblt := lt_length_of_mem_stopIdxs hbmem
    rw [sliceCoords_length]
    omega
  · by_cases hc : (stopIdxs ps).getLastD 0 < ps.length - 1
    · rw [if_pos hc] at hs
      simp only [List.mem_singleton] at hs
      subst hs
      rw [sliceCoords_length]
      omega
    · rw [if_neg hc] at hs
      simp at hs

end Claims10

/-- Witness for degenerate_branch_unreachable at the concrete two-stop
route. -/
theorem degenerate_branch_unreachable_witness :
    (2 ≤ routeA.points.length ∧ 2 ≤ (stopIdxs routeA.points).length) ∧
    ∀ s ∈ segmentSlices routeA.points, 2 ≤ s.length :=
  ⟨⟨by with_unfolding_all decide, by with_unfolding_all decide⟩,
   degenerate_branch_unreachable routeA.points
     (by with_unfolding_all decide) (by with_unfolding_all decide)⟩
